import Mathlib

/-!
Verification of the TQL query engine (tokenizer `oplex.py`, parser
`opparser.py`, record-collection / evaluator `opdb.py`).

Records are JSON-decoded nested trees of strings, integers, booleans,
nulls, lists and string-keyed mappings.  Python's structural equality
(`==`), membership (`in`) and the collection operations of `OpResponse`
are embedded as executable functions here.  Recursions that are not
structural in Lean are written with an explicit fuel argument whose
canonical value is always sufficient (each step consumes fuel 1 and the
canonical fuel bounds the number of steps); this keeps every definition
kernel-evaluable.
-/

namespace Oppy

/-- A JSON-like record value as handled by the Python code. -/
inductive Value where
  | str : String → Value
  | int : Int → Value
  | bool : Bool → Value
  | null : Value
  | list : List Value → Value
  | dict : List (String × Value) → Value

mutual

/-- Executable structural size of a value, used as recursion fuel. -/
def valSize : Value → Nat
  | .str _ => 1
  | .int _ => 1
  | .bool _ => 1
  | .null => 1
  | .list l => 1 + valSizeL l
  | .dict d => 1 + valSizeD d

/-- Combined size of a list of values. -/
def valSizeL : List Value → Nat
  | [] => 1
  | v :: rest => 1 + valSize v + valSizeL rest

/-- Combined size of the values of a dict. -/
def valSizeD : List (String × Value) → Nat
  | [] => 1
  | kv :: rest => 1 + valSize kv.2 + valSizeD rest

end

/-- The Python exceptions the evaluator code can raise or catch. -/
inductive PyErr where
  | keyError
  | typeError
  | attributeError
  deriving DecidableEq

/-- First-match key lookup in a dict, as Python `d[key]` on a dict. -/
def lookupKey (k : String) : List (String × Value) → Option Value
  | [] => none
  | (k2, v) :: rest => if k2 = k then some v else lookupKey k rest

/-- Pairwise test of two lists by a predicate, false on length mismatch
(Python list equality: equal lengths and elementwise `==`). -/
def all2 (p : Value → Value → Bool) : List Value → List Value → Bool
  | [], [] => true
  | a :: as_, b :: bs => p a b && all2 p as_ bs
  | _, _ => false

/-- Fueled Python structural equality `a == b`.  Recursion descends the
left value only, so fuel `valSize a` always suffices.  Mirrors CPython:
dicts compare by size plus per-key lookup of the left dict's bindings in
the right dict; lists compare elementwise; `True == 1` and
`False == 0` hold across bool/int. -/
def pyBeqF : Nat → Value → Value → Bool
  | 0, _, _ => false
  | _ + 1, .str a, .str b => a == b
  | _ + 1, .int a, .int b => a == b
  | _ + 1, .bool a, .bool b => a == b
  | _ + 1, .bool a, .int b => (if a then (1 : Int) else 0) == b
  | _ + 1, .int a, .bool b => a == (if b then (1 : Int) else 0)
  | _ + 1, .null, .null => true
  | f + 1, .list a, .list b => all2 (pyBeqF f) a b
  | f + 1, .dict a, .dict b =>
      a.length == b.length &&
      a.all (fun kv =>
        match lookupKey kv.1 b with
        | some v2 => pyBeqF f kv.2 v2
        | none => false)
  | _ + 1, _, _ => false

/-- Python structural equality `a == b` on record values. -/
def pyBeq (a b : Value) : Bool := pyBeqF (valSize a) a b

/-- Python list membership `obj in objs` (the list element is the left
operand of the `==` performed by `list.__contains__`). -/
def inList (objs : List Value) (obj : Value) : Bool :=
  objs.any (fun e => pyBeq e obj)

/-- `OpResponse.add`: append the object unless an equal one is present. -/
def add (objs : List Value) (obj : Value) : List Value :=
  if inList objs obj then objs else objs ++ [obj]

/-- `OpResponse.__init__(copy_from)`: the list comprehension
`[obj for obj in copy_from]`, a fresh list with the same contents. -/
def copyFrom (objs : List Value) : List Value := objs

/-- No two structurally-equal records: no earlier element is
Python-equal to a later one. -/
def dupFree : List Value → Bool
  | [] => true
  | x :: xs => xs.all (fun y => !(pyBeq x y)) && dupFree xs

/-- Distinct keys, as Python dicts guarantee. -/
def keysNodup : List String → Bool
  | [] => true
  | k :: ks => ks.all (fun a => !(a == k)) && keysNodup ks

/-- Fueled well-formedness of a value as a Python object: every dict in
it has distinct keys.  Fuel `valSize v` suffices. -/
def wfValF : Nat → Value → Bool
  | 0, _ => false
  | f + 1, .list l => l.all (wfValF f)
  | f + 1, .dict d => keysNodup (d.map Prod.fst) && d.all (fun kv => wfValF f kv.2)
  | _ + 1, _ => true

/-- Well-formedness of a value as a Python object. -/
def wfVal (v : Value) : Bool := wfValF (valSize v) v

/-- `OpResponse.__and__` (intersection): walk `self`, keep (a copy of)
each object that is in `other`, inserting through `add`. -/
def interOp (self other : List Value) : List Value :=
  self.foldl (fun acc obj => if inList other obj then add acc obj else acc) []

/-- `OpResponse.__or__` (union): first walk `other` adding every object
(copying it when it also occurs in `self`), then walk `self` adding the
objects not already present in the response. -/
def unionOp (self other : List Value) : List Value :=
  let acc := other.foldl (fun acc obj => add acc obj) []
  self.foldl (fun acc obj => if inList acc obj then acc else add acc obj) acc

/-- The key walk of `OpResponse._find_value_by_key`:
`for key in keys: d = d[key]`.  Indexing a dict with an absent key
raises `KeyError`; indexing any non-dict value with a string key raises
`TypeError`. -/
def walkPath : Value → List String → Except PyErr Value
  | d, [] => .ok d
  | .dict m, k :: ks =>
      match lookupKey k m with
      | some v => walkPath v ks
      | none => .error .keyError
  | _, _ :: _ => .error .typeError

/-- Python `tag.split('.')`: cut the character sequence at every dot;
`"".split('.')` is `[""]` and a trailing dot yields a trailing empty
field. -/
def splitDot (tag : String) : List String :=
  (tag.data.foldr
    (fun c acc =>
      if c = '.' then [] :: acc
      else
        match acc with
        | g :: gs => (c :: g) :: gs
        | [] => [[c]])
    [[]]).map (fun l => ⟨l⟩)

/-- `OpResponse._find_value_by_key(obj, tag)`: walk the keys of
`tag.split('.')` through the nested dicts. -/
def findValueByKey (obj : Value) (tag : String) : Except PyErr Value :=
  walkPath obj (splitDot tag)

/-- Loop of `OpResponse.filter`: resolve the tag in each object;
`KeyError` skips the object, any other exception propagates, and a
matching object is inserted into the response through `add`. -/
def filterGo (tag : String) (cmp : Value → Except PyErr Bool) :
    List Value → List Value → Except PyErr (List Value)
  | [], acc => .ok acc
  | obj :: rest, acc =>
      match findValueByKey obj tag with
      | .error .keyError => filterGo tag cmp rest acc
      | .error e => .error e
      | .ok v =>
          match cmp v with
          | .error e => .error e
          | .ok true => filterGo tag cmp rest (add acc obj)
          | .ok false => filterGo tag cmp rest acc

/-- `OpResponse.filter(tag, cmp_func)`. -/
def filterOp (objs : List Value) (tag : String)
    (cmp : Value → Except PyErr Bool) : Except PyErr (List Value) :=
  filterGo tag cmp objs []

/-- Fueled `OpResponse._find_value(obj_values, cmp_func)`: scan a list
of values; scalars (ints, bools — a Python `bool` is an `int` — and
strings) are tested with `cmp_func`, dicts recurse into their values,
lists recurse into their elements, `None` is skipped.  Fuel
`valSizeL vals` always suffices. -/
def findValueF (cmp : Value → Except PyErr Bool) : Nat → List Value → Except PyErr Bool
  | 0, _ => .ok false
  | _ + 1, [] => .ok false
  | f + 1, v :: rest =>
      match
        (match v with
         | .int _ | .str _ | .bool _ => cmp v
         | .dict d => findValueF cmp f (d.map Prod.snd)
         | .list l => findValueF cmp f l
         | .null => .ok false) with
      | .error e => .error e
      | .ok true => .ok true
      | .ok false => findValueF cmp f rest

/-- `OpResponse._find_value` at its canonical fuel. -/
def findValue (cmp : Value → Except PyErr Bool) (vals : List Value) : Except PyErr Bool :=
  findValueF cmp (valSizeL vals) vals

/-- Loop of `OpResponse.fuzzy`: `obj.values()` requires each record to
be a dict (otherwise Python raises `AttributeError`); a record any of
whose reachable leaves matches is inserted through `add`. -/
def fuzzyGo (cmp : Value → Except PyErr Bool) :
    List Value → List Value → Except PyErr (List Value)
  | [], acc => .ok acc
  | obj :: rest, acc =>
      match
        (match obj with
         | .dict d => findValue cmp (d.map Prod.snd)
         | _ => .error .attributeError) with
      | .error e => .error e
      | .ok true => fuzzyGo cmp rest (add acc obj)
      | .ok false => fuzzyGo cmp rest acc

/-- `OpResponse.fuzzy(cmp_func)`. -/
def fuzzyOp (objs : List Value) (cmp : Value → Except PyErr Bool) :
    Except PyErr (List Value) :=
  fuzzyGo cmp objs []

/-! ### Pattern construction and `re.match`

`OpFilter` and `OpFuzzy` both store the pattern string
`'^' + str(value).replace('*', '.*') + '$'` and match it with
`re.match` (case-insensitively for `OpFuzzy`).  The fragment of Python
regular expressions reachable from lexable literals consists of literal
characters, `.`, `.*`, the leading `^` and the trailing `$`; it is
interpreted below. -/

/-- `str.replace('*', '.*')` at the character level. -/
def expandStarsL (l : List Char) : List Char :=
  l.foldr (fun c acc => if c = '*' then '.' :: '*' :: acc else c :: acc) []

/-- The pattern string built by the `OpFilter` / `OpFuzzy` constructors:
`'^' + lit.replace('*', '.*') + '$'`. -/
def mkPattern (lit : String) : String :=
  ⟨'^' :: expandStarsL lit.data ++ ['$']⟩

/-- One element of a compiled pattern. -/
inductive RAtom where
  | char : Char → RAtom
  | anyOne : RAtom
  | starAny : RAtom
  | dollar : RAtom
  deriving DecidableEq

/-- Compile the characters of a regex pattern of the reachable fragment:
`.*` is a wildcard over sequences, a lone `.` over single characters,
`$` is the end anchor, anything else is a literal.  (A `*` with no
preceding atom cannot occur: every `*` in a built pattern is preceded by
the inserted `.`.) -/
def regexAtomOf (c : Char) : RAtom :=
  if c = '.' then .anyOne else if c = '$' then .dollar else .char c

def parseRegexAtoms : List Char → List RAtom
  | [] => []
  | [c] => [regexAtomOf c]
  | c :: c2 :: rest =>
      if c = '.' ∧ c2 = '*' then .starAny :: parseRegexAtoms rest
      else regexAtomOf c :: parseRegexAtoms (c2 :: rest)

/-- Character comparison, optionally case-insensitive (`re.IGNORECASE`). -/
def charEq (ci : Bool) (c d : Char) : Bool :=
  if ci then c.toLower == d.toLower else c == d

/-- Fueled matching of compiled atoms against the characters of the
target, with `re.match` semantics: the match starts at the beginning of
the target and may end anywhere (an exhausted pattern succeeds with
characters left over); `.` never matches a newline; `$` is zero-width
and succeeds exactly at the end of the target or just before a single
final newline.  Fuel `atoms.length + s.length + 1` always suffices. -/
def matchAtomsF (ci : Bool) : Nat → List RAtom → List Char → Bool
  | 0, _, _ => false
  | _ + 1, [], _ => true
  | f + 1, .dollar :: rest, s =>
      (s = [] || s = ['\n']) && matchAtomsF ci f rest s
  | f + 1, .starAny :: rest, s =>
      matchAtomsF ci f rest s ||
        (match s with
         | c :: s2 => !(c = '\n') && matchAtomsF ci f (.starAny :: rest) s2
         | [] => false)
  | f + 1, .anyOne :: rest, c :: s => !(c = '\n') && matchAtomsF ci f rest s
  | _ + 1, .anyOne :: _, [] => false
  | f + 1, .char c :: rest, d :: s => charEq ci c d && matchAtomsF ci f rest s
  | _ + 1, .char _ :: _, [] => false

/-- `re.match(pattern, s)` for the reachable fragment: a leading `^` is
redundant (`re.match` already anchors at the start) and is dropped, the
rest is compiled and matched. -/
def reMatch (pattern : String) (ci : Bool) (s : String) : Bool :=
  let body := match pattern.data with
    | '^' :: rest => rest
    | l => l
  let atoms := parseRegexAtoms body
  matchAtomsF ci (atoms.length + s.data.length + 1) atoms s.data

/-- `'{}'.format(value)` for the values `_find_value` feeds to a fuzzy
comparison (strings, ints and bools; by the `_find_value` scan no other
shape reaches it — containers recurse and `None` is skipped, so the
container fallback below is never exercised by the evaluator). -/
def pyFormat : Value → String
  | .str s => s
  | .int n => toString n
  | .bool b => if b then "True" else "False"
  | .null => "None"
  | .list _ => ""
  | .dict _ => ""

/-- `OpFilter.match(value)`: `None` compares against the pattern string
(never `None`) and fails; a string is matched case-sensitively;
`re.match` raises `TypeError` on any non-string target. -/
def opFilterMatch (pattern : String) : Value → Except PyErr Bool
  | .null => .ok false
  | .str s => .ok (reMatch pattern false s)
  | _ => .error .typeError

/-- `OpFuzzy.match(value)`: `None` fails; any other value is formatted
into a string and matched case-insensitively. -/
def opFuzzyMatch (pattern : String) : Value → Except PyErr Bool
  | .null => .ok false
  | v => .ok (reMatch pattern true (pyFormat v))

/-! ### Tokenizer (`oplex.py`) -/

/-- A token of the TQL lexer.  `t_NUMBER` converts the digit run with
`int`, so the token carries the numeric value. -/
inductive Token where
  | name : String → Token
  | num : Nat → Token
  | str : String → Token
  | equals
  | and
  | or
  | lparen
  | rparen
  deriving DecidableEq

/-- `t_NAME = r'[a-zA-Z\.]+'`. -/
def isNameChar (c : Char) : Bool := c.isAlpha || c = '.'

/-- The character class of `t_STRING`: `[a-zA-Z0-9\- \*:/\.]`. -/
def isStrChar (c : Char) : Bool :=
  c.isAlpha || c.isDigit || c = '-' || c = ' ' || c = '*' || c = ':' ||
    c = '/' || c = '.'

/-- `int()` of a digit run. -/
def digitsToNat (l : List Char) : Nat :=
  l.foldl (fun n c => n * 10 + (c.toNat - '0'.toNat)) 0

/-- Fueled lexer step: spaces and tabs are ignored, a digit run becomes
a `NUMBER`, a quoted run of string characters becomes a `STRING` with
the quotes stripped, a run of name characters becomes a `NAME`, the
five single-character operators map to their tokens, newlines only
bump the line counter, and any other character (including a quote that
does not open a well-formed string) is reported illegal and skipped.
Every step consumes at least one character, so fuel `cs.length`
suffices. -/
def lexF : Nat → List Char → List Token
  | 0, _ => []
  | _ + 1, [] => []
  | f + 1, c :: rest =>
      if c = ' ' ∨ c = '\t' then lexF f rest
      else if c.isDigit then
        .num (digitsToNat (c :: rest.takeWhile Char.isDigit)) ::
          lexF f (rest.dropWhile Char.isDigit)
      else if c = '"' then
        let body := rest.takeWhile isStrChar
        match rest.dropWhile isStrChar with
        | '"' :: rest2 =>
            if body.isEmpty then lexF f rest else .str ⟨body⟩ :: lexF f rest2
        | _ => lexF f rest
      else if isNameChar c then
        .name ⟨c :: rest.takeWhile isNameChar⟩ ::
          lexF f (rest.dropWhile isNameChar)
      else if c = '&' then .and :: lexF f rest
      else if c = '|' then .or :: lexF f rest
      else if c = '=' then .equals :: lexF f rest
      else if c = '(' then .lparen :: lexF f rest
      else if c = ')' then .rparen :: lexF f rest
      else lexF f rest

/-- Tokenize a query string. -/
def lexQuery (s : String) : List Token :=
  lexF s.data.length s.data

/-! ### Parser (`opparser.py`)

The grammar is `input : expr` with
`expr : expr OR expr | expr AND expr | LPAREN expr RPAREN
      | NAME EQUALS STRING | NAME EQUALS NUMBER | STRING | NAME | NUMBER`
under `precedence = (('left', 'OR', 'AND'),)`: both operators sit on one
left-associative level, so the LALR parser reduces strictly left to
right.  The equivalent executable form parses an atom and then folds
`(AND|OR) atom` steps onto the left.  `p_error` raises `ParsingError`
naming the offending token's value, or `"EOL"` when input ended. -/

/-- The AST node types `OpFilter`, `OpFuzzy`, `OpUnionOperator` and
`OpIntersectionOperator`.  As in the source constructors, the leaves
store the already-anchored pattern string. -/
inductive Expr where
  | filter : String → String → Expr
  | fuzzy : String → Expr
  | union : Expr → Expr → Expr
  | inter : Expr → Expr → Expr
  deriving DecidableEq

/-- `OpTqlAst`: an optional expression. -/
def Ast := Option Expr

/-- The text `p_error` interpolates for a token (`token.value`). -/
def tokenText : Token → String
  | .name s => s
  | .num n => toString n
  | .str s => s
  | .equals => "="
  | .and => "&"
  | .or => "|"
  | .lparen => "("
  | .rparen => ")"

/-- `ParsingError` message for an unexpected token. -/
def errNear (t : Token) : String :=
  "Syntax error near of \"" ++ tokenText t ++ "\""

/-- `ParsingError` message for unexpected end of input. -/
def errEOL : String := "Syntax error near of \"EOL\""

mutual

/-- Parse one atom: a parenthesized expression, a `NAME = STRING` /
`NAME = NUMBER` filter pair, or a bare `STRING` / `NAME` / `NUMBER`
fuzzy literal.  After `NAME EQUALS` only a string or number may follow
(there is no `NAME EQUALS NAME` production).  Each call consumes fuel
1; fuel `2 * ts.length + 1` always suffices. -/
def parseAtomF : Nat → List Token → Except String (Expr × List Token)
  | 0, _ => .error errEOL
  | f + 1, .lparen :: rest => do
      let (e, r) ← parseExprF f rest
      match r with
      | .rparen :: r2 => .ok (e, r2)
      | t :: _ => .error (errNear t)
      | [] => .error errEOL
  | _ + 1, .name n :: .equals :: .str s :: rest =>
      .ok (.filter n (mkPattern s), rest)
  | _ + 1, .name n :: .equals :: .num k :: rest =>
      .ok (.filter n (mkPattern (toString k)), rest)
  | _ + 1, .name _ :: .equals :: t :: _ => .error (errNear t)
  | _ + 1, [.name _, .equals] => .error errEOL
  | _ + 1, .name n :: rest => .ok (.fuzzy (mkPattern n), rest)
  | _ + 1, .str s :: rest => .ok (.fuzzy (mkPattern s), rest)
  | _ + 1, .num k :: rest => .ok (.fuzzy (mkPattern (toString k)), rest)
  | _ + 1, t :: _ => .error (errNear t)
  | _ + 1, [] => .error errEOL

/-- Fold `(AND|OR) atom` continuations onto the expression accumulated
on the left — the left-associative single precedence level. -/
def parseOpsF : Nat → Expr → List Token → Except String (Expr × List Token)
  | 0, _, _ => .error errEOL
  | f + 1, e, .or :: rest => do
      let (e2, r) ← parseAtomF f rest
      parseOpsF f (.union e e2) r
  | f + 1, e, .and :: rest => do
      let (e2, r) ← parseAtomF f rest
      parseOpsF f (.inter e e2) r
  | _ + 1, e, ts => .ok (e, ts)

/-- Parse an expression: an atom followed by operator continuations. -/
def parseExprF : Nat → List Token → Except String (Expr × List Token)
  | 0, _ => .error errEOL
  | f + 1, ts => do
      let (e, r) ← parseAtomF f ts
      parseOpsF f e r

end

/-- `input : expr` — the whole token sequence must reduce to a single
expression; there is no production for an empty input, and a leftover
token is a syntax error. -/
def parseInput (ts : List Token) : Except String Ast := do
  let (e, r) ← parseExprF (2 * ts.length + 2) ts
  match r with
  | [] => .ok (some e)
  | t :: _ => .error (errNear t)

/-- `OpTqlParser(query).parse()`. -/
def parseQuery (s : String) : Except String Ast :=
  parseInput (lexQuery s)

/-! ### Evaluator (`OpDatabase`) -/

/-- `OpDatabase._evaluate_expression` on a (non-`None`) expression:
filters and fuzzy scans run the collection primitives with the leaf's
`match` as comparison function; a binary node evaluates both sides
against the same collection and combines them with `|` / `&`
(`left.__or__(right)` walks `right` — its `other` — first). -/
def evalExpr (objects : List Value) : Expr → Except PyErr (List Value)
  | .filter name pattern => filterOp objects name (opFilterMatch pattern)
  | .fuzzy pattern => fuzzyOp objects (opFuzzyMatch pattern)
  | .union l r => do
      let a ← evalExpr objects l
      let b ← evalExpr objects r
      .ok (unionOp a b)
  | .inter l r => do
      let a ← evalExpr objects l
      let b ← evalExpr objects r
      .ok (interOp a b)

/-- `OpDatabase._evaluate_expression` itself: when the expression is
`None` every `isinstance` test fails and the function falls off its
`if`/`elif` chain, returning Python `None` — not the collection. -/
def evaluateExpression (objects : List Value) :
    Ast → Except PyErr (Option (List Value))
  | none => .ok none
  | some e => (evalExpr objects e).map some

/-- `OpDatabase._evaluate_ast`: evaluate against a copy of the stored
objects. -/
def evaluateAst (objects : List Value) (ast : Ast) :
    Except PyErr (Option (List Value)) :=
  evaluateExpression (copyFrom objects) ast

/-! ### Store-level semantics of the collection operations

To express that the set operations mutate only the response they build,
the four primitives are restated over an explicit store: a list of
collection contents addressed by index.  Each operation allocates a
fresh response at the end of the store and then runs exactly the loops
of the source, every `add` going through the store. -/

/-- The contents of collection `i` in store `σ`. -/
def readC (σ : List (List Value)) (i : Nat) : List Value := σ.getD i []

/-- Overwrite the contents of collection `i`. -/
def writeC (σ : List (List Value)) (i : Nat) (l : List Value) :
    List (List Value) := σ.set i l

/-- `OpResponse.add` acting on collection `r` of the store. -/
def addS (σ : List (List Value)) (r : Nat) (obj : Value) :
    List (List Value) :=
  if inList (readC σ r) obj then σ else writeC σ r (readC σ r ++ [obj])

/-- `__and__` over the store: allocate a response, then walk `self`
adding every object present in `other`. -/
def interS (σ : List (List Value)) (selfI otherI : Nat) :
    List (List Value) × Nat :=
  let r := σ.length
  let σ1 := σ ++ [[]]
  ((readC σ1 selfI).foldl
      (fun τ obj => if inList (readC τ otherI) obj then addS τ r obj else τ)
      σ1,
    r)

/-- `__or__` over the store: allocate a response, add every object of
`other`, then every object of `self` not already in the response. -/
def unionS (σ : List (List Value)) (selfI otherI : Nat) :
    List (List Value) × Nat :=
  let r := σ.length
  let σ1 := σ ++ [[]]
  let σ2 := (readC σ1 otherI).foldl (fun τ obj => addS τ r obj) σ1
  ((readC σ2 selfI).foldl
      (fun τ obj => if inList (readC τ r) obj then τ else addS τ r obj)
      σ2,
    r)

/-- Loop of `filter` over the store. -/
def filterGoS (tag : String) (cmp : Value → Except PyErr Bool) (r : Nat) :
    List Value → List (List Value) → List (List Value) × Except PyErr Nat
  | [], σ => (σ, .ok r)
  | obj :: rest, σ =>
      match findValueByKey obj tag with
      | .error .keyError => filterGoS tag cmp r rest σ
      | .error e => (σ, .error e)
      | .ok v =>
          match cmp v with
          | .error e => (σ, .error e)
          | .ok true => filterGoS tag cmp r rest (addS σ r obj)
          | .ok false => filterGoS tag cmp r rest σ

/-- `filter` over the store: allocate a response and run the loop; an
exception leaves the store as it stands. -/
def filterS (σ : List (List Value)) (selfI : Nat) (tag : String)
    (cmp : Value → Except PyErr Bool) :
    List (List Value) × Except PyErr Nat :=
  let r := σ.length
  let σ1 := σ ++ [[]]
  filterGoS tag cmp r (readC σ1 selfI) σ1

/-- Loop of `fuzzy` over the store. -/
def fuzzyGoS (cmp : Value → Except PyErr Bool) (r : Nat) :
    List Value → List (List Value) → List (List Value) × Except PyErr Nat
  | [], σ => (σ, .ok r)
  | obj :: rest, σ =>
      match
        (match obj with
         | .dict d => findValue cmp (d.map Prod.snd)
         | _ => .error .attributeError) with
      | .error e => (σ, .error e)
      | .ok true => fuzzyGoS cmp r rest (addS σ r obj)
      | .ok false => fuzzyGoS cmp r rest σ

/-- `fuzzy` over the store. -/
def fuzzyS (σ : List (List Value)) (selfI : Nat)
    (cmp : Value → Except PyErr Bool) :
    List (List Value) × Except PyErr Nat :=
  let r := σ.length
  let σ1 := σ ++ [[]]
  fuzzyGoS cmp r (readC σ1 selfI) σ1

/-! ### Lemmas about structural equality and duplicate-freeness -/

theorem valSize_pos (v : Value) : 1 ≤ valSize v := by
  cases v <;> simp [valSize]

theorem valSize_lt_of_mem_list {v : Value} {l : List Value} (h : v ∈ l) :
    valSize v < valSizeL l := by
  induction l with
  | nil => cases h
  | cons x xs ih =>
      rcases List.mem_cons.mp h with rfl | h2
      · simp [valSizeL]; omega
      · have := ih h2
        simp [valSizeL]; omega

theorem valSize_lt_of_mem_dict {kv : String × Value}
    {d : List (String × Value)} (h : kv ∈ d) :
    valSize kv.2 < valSizeD d := by
  induction d with
  | nil => cases h
  | cons x xs ih =>
      rcases List.mem_cons.mp h with rfl | h2
      · simp [valSizeD]; omega
      · have := ih h2
        simp [valSizeD]; omega

theorem lookupKey_self {k : String} {v : Value} {d : List (String × Value)}
    (hnd : keysNodup (d.map Prod.fst) = true) (h : (k, v) ∈ d) :
    lookupKey k d = some v := by
  induction d with
  | nil => cases h
  | cons x xs ih =>
      simp only [List.map_cons, keysNodup, Bool.and_eq_true,
        List.all_eq_true, List.mem_map, Bool.not_eq_true'] at hnd
      rcases List.mem_cons.mp h with rfl | h2
      · simp [lookupKey]
      · have hne : ¬ x.1 = k := by
          intro hk
          have hb := hnd.1 k ⟨(k, v), h2, rfl⟩
          simp [hk] at hb
        simp only [lookupKey, if_neg hne]
        exact ih hnd.2 h2

theorem all2_refl {p : Value → Value → Bool} {l : List Value}
    (h : ∀ x ∈ l, p x x = true) : all2 p l l = true := by
  induction l with
  | nil => rfl
  | cons x xs ih =>
      simp only [all2, Bool.and_eq_true]
      exact ⟨h x (by simp), ih fun y hy => h y (by simp [hy])⟩

theorem pyBeqF_refl : ∀ (f : Nat) (v : Value), valSize v ≤ f →
    wfValF f v = true → pyBeqF f v v = true := by
  intro f
  induction f with
  | zero =>
      intro v hv _
      have := valSize_pos v
      omega
  | succ f ih =>
      intro v hv hwf
      cases v with
      | str s => simp [pyBeqF]
      | int n => simp [pyBeqF]
      | bool b => simp [pyBeqF]
      | null => simp [pyBeqF]
      | list l =>
          simp only [pyBeqF]
          refine all2_refl fun x hx => ?_
          have hsz : valSize x ≤ f := by
            have := valSize_lt_of_mem_list hx
            simp [valSize] at hv
            omega
          have hw : wfValF f x = true := by
            simp only [wfValF, List.all_eq_true] at hwf
            exact hwf x hx
          exact ih x hsz hw
      | dict d =>
          simp only [wfValF, Bool.and_eq_true, List.all_eq_true] at hwf
          simp only [pyBeqF, Bool.and_eq_true, List.all_eq_true, beq_self_eq_true]
          refine ⟨trivial, fun kv hkv => ?_⟩
          have hl : lookupKey kv.1 d = some kv.2 :=
            lookupKey_self hwf.1 (by simpa using hkv)
          rw [hl]
          have hsz : valSize kv.2 ≤ f := by
            have := valSize_lt_of_mem_dict hkv
            simp [valSize] at hv
            omega
          exact ih kv.2 hsz (hwf.2 kv hkv)

/-- Python equality is reflexive on well-formed values. -/
theorem pyBeq_refl {v : Value} (h : wfVal v = true) : pyBeq v v = true :=
  pyBeqF_refl (valSize v) v le_rfl h

theorem inList_of_mem {A : List Value} {v : Value} (hm : v ∈ A)
    (hw : wfVal v = true) : inList A v = true :=
  List.any_eq_true.mpr ⟨v, hm, pyBeq_refl hw⟩

theorem inList_append (a b : List Value) (v : Value) :
    inList (a ++ b) v = (inList a v || inList b v) := by
  simp [inList]

theorem dupFree_iff {l : List Value} :
    dupFree l = true ↔ l.Pairwise (fun a b => pyBeq a b = false) := by
  induction l with
  | nil => simp [dupFree]
  | cons x xs ih =>
      simp [dupFree, Bool.and_eq_true, List.all_eq_true,
        Bool.not_eq_true', ih, List.pairwise_cons]

/-- `dupFree` of an append, unfolded. -/
theorem dupFree_append {a b : List Value} :
    dupFree (a ++ b) = true ↔
      dupFree a = true ∧ dupFree b = true ∧
        ∀ x ∈ a, ∀ y ∈ b, pyBeq x y = false := by
  simp [dupFree_iff, List.pairwise_append]

theorem add_of_not_in {acc : List Value} {obj : Value}
    (h : inList acc obj = false) : add acc obj = acc ++ [obj] := by
  simp [add, h]

theorem dupFree_add {acc : List Value} {obj : Value}
    (h : dupFree acc = true) : dupFree (add acc obj) = true := by
  cases hin : inList acc obj with
  | true => simpa [add, hin] using h
  | false =>
      rw [add_of_not_in hin]
      refine dupFree_append.mpr ⟨h, rfl, ?_⟩
      intro x hx y hy
      have hy2 : y = obj := by simpa using hy
      subst hy2
      cases hbe : pyBeq x y with
      | false => rfl
      | true =>
          have : inList acc y = true :=
            List.any_eq_true.mpr ⟨x, hx, hbe⟩
          rw [this] at hin
          cases hin

/-- Accumulating through `add` preserves duplicate-freeness. -/
theorem dupFree_foldl_add {l acc : List Value} (h : dupFree acc = true) :
    dupFree (l.foldl add acc) = true := by
  induction l generalizing acc with
  | nil => exact h
  | cons x xs ih => exact ih (dupFree_add h)

/-- Inserting a duplicate-free run through `add` just appends it. -/
theorem foldl_add_of_dupFree : ∀ (l acc : List Value),
    dupFree (acc ++ l) = true → l.foldl add acc = acc ++ l := by
  intro l
  induction l with
  | nil => intro acc _; simp
  | cons x xs ih =>
      intro acc h
      have h2 := dupFree_append.mp h
      have hnin : inList acc x = false := by
        cases hcase : inList acc x with
        | false => rfl
        | true =>
            rcases List.any_eq_true.mp hcase with ⟨e, he, hbe⟩
            have hz := h2.2.2 e he x (by simp)
            rw [hz] at hbe
            cases hbe
      have hstep : add acc x = acc ++ [x] := add_of_not_in hnin
      simp only [List.foldl_cons, hstep]
      rw [ih (acc ++ [x]) (by simpa using h)]
      simp

/-- Second loop of `__or__`: with nothing in the walked list equal to a
`D`-element, folding the conditional `add` over `B ++ D` appends exactly
the elements not already in `B`. -/
theorem foldl_or_step : ∀ (l : List Value) (B D : List Value),
    (∀ o ∈ l, ∀ e ∈ D, pyBeq e o = false) → dupFree l = true →
    l.foldl (fun acc o => if inList acc o then acc else add acc o) (B ++ D)
      = B ++ D ++ l.filter (fun o => !(inList B o)) := by
  intro l
  induction l with
  | nil => intro B D _ _; simp
  | cons o l2 ih =>
      intro B D hD hdf
      have hdf2 := (by simpa [dupFree, Bool.and_eq_true, List.all_eq_true,
        Bool.not_eq_true'] using hdf :
          (∀ y ∈ l2, pyBeq o y = false) ∧ dupFree l2 = true)
      have hDo : inList D o = false := by
        cases hcase : inList D o with
        | false => rfl
        | true =>
            rcases List.any_eq_true.mp hcase with ⟨e, he, hbe⟩
            rw [hD o (by simp) e he] at hbe
            cases hbe
      simp only [List.foldl_cons]
      cases hBo : inList B o with
      | true =>
          have hacc : inList (B ++ D) o = true := by
            simp [inList_append, hBo]
          simp only [hacc, if_true]
          rw [ih B D (fun o2 ho2 e he => hD o2 (by simp [ho2]) e he) hdf2.2]
          simp [List.filter_cons, hBo]
      | false =>
          have hacc : inList (B ++ D) o = false := by
            simp [inList_append, hBo, hDo]
          simp only [hacc, Bool.false_eq_true, if_false]
          rw [add_of_not_in hacc, List.append_assoc B D [o]]
          rw [ih B (D ++ [o]) ?_ hdf2.2]
          · simp [List.filter_cons, hBo, List.append_assoc]
          · intro o2 ho2 e he
            rcases List.mem_append.mp he with he2 | he2
            · exact hD o2 (by simp [ho2]) e he2
            · have : e = o := by simpa using he2
              subst this
              exact hdf2.1 o2 ho2

/-- Loop of `__and__`: folding the guarded `add` keeps, in order, the
walked elements that occur in `B`. -/
theorem foldl_and_step : ∀ (l : List Value) (B D : List Value),
    (∀ o ∈ l, ∀ e ∈ D, pyBeq e o = false) → dupFree l = true →
    l.foldl (fun acc o => if inList B o then add acc o else acc) D
      = D ++ l.filter (fun o => inList B o) := by
  intro l
  induction l with
  | nil => intro B D _ _; simp
  | cons o l2 ih =>
      intro B D hD hdf
      have hdf2 := (by simpa [dupFree, Bool.and_eq_true, List.all_eq_true,
        Bool.not_eq_true'] using hdf :
          (∀ y ∈ l2, pyBeq o y = false) ∧ dupFree l2 = true)
      have hDo : inList D o = false := by
        cases hcase : inList D o with
        | false => rfl
        | true =>
            rcases List.any_eq_true.mp hcase with ⟨e, he, hbe⟩
            rw [hD o (by simp) e he] at hbe
            cases hbe
      simp only [List.foldl_cons]
      cases hBo : inList B o with
      | true =>
          simp only [hBo, if_true]
          rw [add_of_not_in hDo]
          rw [ih B (D ++ [o]) ?_ hdf2.2]
          · simp [List.filter_cons, hBo, List.append_assoc]
          · intro o2 ho2 e he
            rcases List.mem_append.mp he with he2 | he2
            · exact hD o2 (by simp [ho2]) e he2
            · have : e = o := by simpa using he2
              subst this
              exact hdf2.1 o2 ho2
      | false =>
          simp only [hBo, Bool.false_eq_true, if_false]
          rw [ih B D (fun o2 ho2 e he => hD o2 (by simp [ho2]) e he) hdf2.2]
          simp [List.filter_cons, hBo]

/-- The filter loop only ever inserts through `add`, so its result is
duplicate-free whenever the accumulator is. -/
theorem filterGo_dupFree {tag : String} {cmp : Value → Except PyErr Bool} :
    ∀ {l acc res : List Value}, dupFree acc = true →
    filterGo tag cmp l acc = .ok res → dupFree res = true := by
  intro l
  induction l with
  | nil =>
      intro acc res hacc h
      cases h
      exact hacc
  | cons obj rest ih =>
      intro acc res hacc h
      simp only [filterGo] at h
      split at h
      · exact ih hacc h
      · cases h
      · split at h
        · cases h
        · exact ih (dupFree_add hacc) h
        · exact ih hacc h

/-- The fuzzy loop only ever inserts through `add`. -/
theorem fuzzyGo_dupFree {cmp : Value → Except PyErr Bool} :
    ∀ {l acc res : List Value}, dupFree acc = true →
    fuzzyGo cmp l acc = .ok res → dupFree res = true := by
  intro l
  induction l with
  | nil =>
      intro acc res hacc h
      cases h
      exact hacc
  | cons obj rest ih =>
      intro acc res hacc h
      simp only [fuzzyGo] at h
      split at h
      · cases h
      · exact ih (dupFree_add hacc) h
      · exact ih hacc h

/-- A record whose tag resolution raises `KeyError` is skipped by the
filter loop: it contributes neither a match nor an exception. -/
theorem filterGo_skip {tag : String} {cmp : Value → Except PyErr Bool}
    {obj : Value} (hmiss : findValueByKey obj tag = .error .keyError) :
    ∀ (l1 l2 acc : List Value),
    filterGo tag cmp (l1 ++ obj :: l2) acc = filterGo tag cmp (l1 ++ l2) acc := by
  intro l1
  induction l1 with
  | nil =>
      intro l2 acc
      simp only [List.nil_append, filterGo, hmiss]
  | cons x xs ih =>
      intro l2 acc
      simp only [List.cons_append, filterGo]
      split
      · exact ih l2 acc
      · rfl
      · split
        · rfl
        · exact ih l2 _
        · exact ih l2 acc

/-- When every record's tag resolution raises `KeyError`, the filter
loop returns its accumulator untouched. -/
theorem filterGo_all_missing {tag : String} {cmp : Value → Except PyErr Bool} :
    ∀ {l : List Value}, (∀ o ∈ l, findValueByKey o tag = .error .keyError) →
    ∀ acc, filterGo tag cmp l acc = .ok acc := by
  intro l
  induction l with
  | nil => intro _ acc; rfl
  | cons x xs ih =>
      intro h acc
      have hx := h x (by simp)
      simp only [filterGo, hx]
      exact ih (fun o ho => h o (by simp [ho])) acc

/-! ### Frame lemmas over the store -/

theorem readC_append {σ : List (List Value)} {k : Nat}
    (h : k < σ.length) (x : List Value) : readC (σ ++ [x]) k = readC σ k := by
  simp [readC, List.getD, List.getElem?_append, h]

theorem readC_writeC_ne {σ : List (List Value)} {k r : Nat} (h : k ≠ r)
    (l : List Value) : readC (writeC σ r l) k = readC σ k := by
  simp [readC, writeC, List.getD, List.getElem?_set_ne (Ne.symm h)]

theorem readC_addS_ne {σ : List (List Value)} {k r : Nat} (h : k ≠ r)
    (obj : Value) : readC (addS σ r obj) k = readC σ k := by
  unfold addS
  split
  · rfl
  · exact readC_writeC_ne h _

/-- A fold whose every step leaves collection `k` unchanged leaves it
unchanged. -/
theorem readC_foldl {α : Type} {k : Nat}
    {g : List (List Value) → α → List (List Value)}
    (hg : ∀ τ a, readC (g τ a) k = readC τ k) :
    ∀ (l : List α) (τ : List (List Value)),
    readC (l.foldl g τ) k = readC τ k := by
  intro l
  induction l with
  | nil => intro τ; rfl
  | cons x xs ih => intro τ; rw [List.foldl_cons, ih, hg]

theorem readC_filterGoS {tag : String} {cmp : Value → Except PyErr Bool}
    {k r : Nat} (hkr : k ≠ r) :
    ∀ (l : List Value) (σ : List (List Value)),
    readC (filterGoS tag cmp r l σ).1 k = readC σ k := by
  intro l
  induction l with
  | nil => intro σ; rfl
  | cons obj rest ih =>
      intro σ
      simp only [filterGoS]
      split
      · exact ih σ
      · rfl
      · split
        · rfl
        · rw [ih, readC_addS_ne hkr]
        · exact ih σ

theorem readC_fuzzyGoS {cmp : Value → Except PyErr Bool}
    {k r : Nat} (hkr : k ≠ r) :
    ∀ (l : List Value) (σ : List (List Value)),
    readC (fuzzyGoS cmp r l σ).1 k = readC σ k := by
  intro l
  induction l with
  | nil => intro σ; rfl
  | cons obj rest ih =>
      intro σ
      simp only [fuzzyGoS]
      split
      · rfl
      · rw [ih, readC_addS_ne hkr]
      · exact ih σ

/-! ### The matcher as a glob over the literal

Spec-side descriptions of the matching behavior, written over the raw
query literal rather than the built pattern string, to compare with the
code's pattern construction plus `re.match`. -/

/-- The claim's matching semantics, verbatim: each `*` matches any
character sequence, every other literal character matches only itself,
and the whole target must be covered. -/
def starGlobF : Nat → List Char → List Char → Bool
  | 0, _, _ => false
  | _ + 1, [], s => decide (s = [])
  | f + 1, c :: p, s =>
      if c = '*' then
        starGlobF f p s ||
          (match s with
           | _ :: s2 => starGlobF f (c :: p) s2
           | [] => false)
      else
        match s with
        | d :: s2 => decide (c = d) && starGlobF f p s2
        | [] => false

/-- The claim's matching semantics on strings. -/
def starGlob (lit target : String) : Bool :=
  starGlobF (lit.data.length + target.data.length + 1) lit.data target.data

/-- The matching the code actually implements, as a glob over the
literal: `*` matches any sequence of non-newline characters, `.`
matches any single non-newline character (the regex dot leaks through
the normalization), every other character matches itself under the
given case sensitivity, and at the end of the literal the target must
be exhausted up to an optional single final newline. -/
def globF (ci : Bool) : Nat → List Char → List Char → Bool
  | 0, _, _ => false
  | _ + 1, [], s => decide (s = []) || decide (s = ['\n'])
  | f + 1, c :: p, s =>
      if c = '*' then
        globF ci f p s ||
          (match s with
           | d :: s2 => !(d = '\n') && globF ci f (c :: p) s2
           | [] => false)
      else if c = '.' then
        match s with
        | d :: s2 => !(d = '\n') && globF ci f p s2
        | [] => false
      else
        match s with
        | d :: s2 => charEq ci c d && globF ci f p s2
        | [] => false

/-- The code's matching semantics on strings. -/
def glob (ci : Bool) (lit target : String) : Bool :=
  globF ci (lit.data.length + target.data.length + 2) lit.data target.data

/-- Direct compilation of a literal: `*` to the sequence wildcard, `.`
to the single-character wildcard, anything else to itself. -/
def compileLit (l : List Char) : List RAtom :=
  l.map fun c =>
    if c = '*' then .starAny else if c = '.' then .anyOne else .char c

theorem expandStarsL_nil : expandStarsL [] = [] := rfl

theorem expandStarsL_cons (c : Char) (l : List Char) :
    expandStarsL (c :: l) =
      if c = '*' then '.' :: '*' :: expandStarsL l else c :: expandStarsL l := by
  simp [expandStarsL]

/-- The pattern body followed by the `$` anchor never starts with `*`
(every `*` in a built pattern follows the inserted `.`). -/
theorem expand_dollar_cons (l : List Char) :
    ∃ x xs, expandStarsL l ++ ['$'] = x :: xs ∧ ¬ x = '*' := by
  cases l with
  | nil => exact ⟨'$', [], rfl, by decide⟩
  | cons c rest =>
      rw [expandStarsL_cons]
      by_cases hc : c = '*'
      · subst hc
        simp only [if_pos rfl]
        exact ⟨'.', '*' :: (expandStarsL rest ++ ['$']), by simp, by decide⟩
      · simp only [if_neg hc]
        exact ⟨c, expandStarsL rest ++ ['$'], by simp, hc⟩

theorem isStrChar_ne_dollar {c : Char} (h : isStrChar c = true) : ¬ c = '$' := by
  intro hc
  subst hc
  simp [isStrChar] at h

/-- Parsing the built pattern body recovers the direct compilation of
the literal, with the `$` anchor at the end. -/
theorem parse_expand : ∀ (l : List Char), (∀ c ∈ l, isStrChar c = true) →
    parseRegexAtoms (expandStarsL l ++ ['$']) = compileLit l ++ [.dollar] := by
  intro l
  induction l with
  | nil => intro _; rfl
  | cons c rest ih =>
      intro hl
      have hrest : ∀ x ∈ rest, isStrChar x = true := fun x hx => hl x (by simp [hx])
      obtain ⟨x, xs, hX, hxstar⟩ := expand_dollar_cons rest
      rw [expandStarsL_cons]
      by_cases hc : c = '*'
      · subst hc
        simp only [if_pos rfl, List.cons_append]
        show parseRegexAtoms ('.' :: '*' :: (expandStarsL rest ++ ['$'])) = _
        simp only [parseRegexAtoms]
        rw [ih hrest]
        simp [compileLit]
      · by_cases hd : c = '.'
        · subst hd
          simp only [if_neg hc, List.cons_append]
          rw [hX]
          simp only [parseRegexAtoms]
          simp only [hxstar, and_false, if_false]
          rw [← hX, ih hrest]
          simp [compileLit, regexAtomOf]
        · have hds : ¬ c = '$' := isStrChar_ne_dollar (hl c (by simp))
          simp only [if_neg hc, List.cons_append]
          rw [hX]
          simp only [parseRegexAtoms]
          simp only [hd, false_and, if_false]
          rw [← hX, ih hrest]
          simp [compileLit, regexAtomOf, if_neg hc, if_neg hd, if_neg hds]

/-- Matching the compiled-and-anchored pattern coincides with the glob
over the literal, step by step at equal fuel. -/
theorem matchGlob (ci : Bool) : ∀ (f : Nat) (p s : List Char),
    p.length + s.length + 2 ≤ f →
    matchAtomsF ci f (compileLit p ++ [.dollar]) s = globF ci f p s := by
  intro f
  induction f with
  | zero => intro p s h; omega
  | succ f ih =>
      intro p s h
      cases p with
      | nil =>
          obtain ⟨f2, rfl⟩ : ∃ f2, f = f2 + 1 := ⟨f - 1, by omega⟩
          show matchAtomsF ci (f2 + 1 + 1) [.dollar] s = _
          simp only [matchAtomsF, globF]
          simp
      | cons c p2 =>
          by_cases hc : c = '*'
          · subst hc
            have hcomp : compileLit ('*' :: p2) ++ [.dollar] =
                .starAny :: (compileLit p2 ++ [.dollar]) := by
              simp [compileLit]
            rw [hcomp]
            cases s with
            | nil =>
                simp only [matchAtomsF, globF]
                rw [ih p2 [] (by simp at h ⊢; omega)]
                simp
            | cons d s2 =>
                simp only [matchAtomsF, globF]
                rw [ih p2 (d :: s2) (by simp at h ⊢; omega)]
                rw [← hcomp, ih ('*' :: p2) s2 (by simp at h ⊢; omega)]
                simp
          · by_cases hd : c = '.'
            · subst hd
              have hcomp : compileLit ('.' :: p2) ++ [.dollar] =
                  .anyOne :: (compileLit p2 ++ [.dollar]) := by
                simp [compileLit]
              rw [hcomp]
              cases s with
              | nil => simp only [matchAtomsF, globF]; simp
              | cons d s2 =>
                  simp only [matchAtomsF, globF]
                  rw [ih p2 s2 (by simp at h ⊢; omega)]
                  simp
            · have hcomp : compileLit (c :: p2) ++ [.dollar] =
                  .char c :: (compileLit p2 ++ [.dollar]) := by
                simp [compileLit, if_neg hc, if_neg hd]
              rw [hcomp]
              cases s with
              | nil => simp only [matchAtomsF, globF]; simp [if_neg hc, if_neg hd]
              | cons d s2 =>
                  simp only [matchAtomsF, globF]
                  rw [ih p2 s2 (by simp at h ⊢; omega)]
                  simp [if_neg hc, if_neg hd]

/-- The pattern built from a literal, matched by `re.match`, is exactly
the glob over the literal. -/
theorem reMatch_eq_glob (ci : Bool) (lit s : String)
    (hl : ∀ c ∈ lit.data, isStrChar c = true) :
    reMatch (mkPattern lit) ci s = glob ci lit s := by
  show matchAtomsF ci _ _ _ = _
  have hbody :
      (match (mkPattern lit).data with
       | '^' :: rest => rest
       | l => l) = expandStarsL lit.data ++ ['$'] := rfl
  rw [hbody, parse_expand lit.data hl]
  have hlen : (compileLit lit.data ++ [RAtom.dollar]).length =
      lit.data.length + 1 := by
    simp [compileLit]
  rw [hlen, glob]
  have hfuel : lit.data.length + 1 + s.data.length + 1 =
      lit.data.length + s.data.length + 2 := by omega
  rw [hfuel]
  exact matchGlob ci (lit.data.length + s.data.length + 2) lit.data s.data
    (by omega)

/-- The glob of an all-digit literal accepts exactly the literal itself,
or the literal followed by one newline (the `$` anchor's tolerance). -/
theorem globF_digits : ∀ (f : Nat) (p s : List Char),
    (∀ c ∈ p, c.isDigit = true) → p.length + s.length + 2 ≤ f →
    globF false f p s = (decide (s = p) || decide (s = p ++ ['\n'])) := by
  intro f
  induction f with
  | zero => intro p s _ h; omega
  | succ f ih =>
      intro p s hp h
      cases p with
      | nil => simp [globF]
      | cons c p2 =>
          have hcd : c.isDigit = true := hp c (by simp)
          have hc : ¬ c = '*' := by
            intro hq
            rw [hq] at hcd
            exact absurd hcd (by decide)
          have hd : ¬ c = '.' := by
            intro hq
            rw [hq] at hcd
            exact absurd hcd (by decide)
          cases s with
          | nil =>
              simp only [globF, if_neg hc, if_neg hd]
              simp
          | cons d s2 =>
              simp only [globF, if_neg hc, if_neg hd]
              rw [ih p2 s2 (fun c2 hc2 => hp c2 (by simp [hc2]))
                (by simp at h ⊢; omega)]
              by_cases hdc : d = c
              · subst hdc
                simp [charEq]
              · simp [charEq, hdc, Ne.symm hdc]

/-! ### The parser folds operators strictly left to right -/

/-- A token chunk that the parser reduces to one atom, leaving any
suffix that starts with an operator (or nothing) untouched. -/
def IsAtom (chunk : List Token) (e : Expr) : Prop :=
  ∀ (f : Nat) (suffix : List Token), 2 * chunk.length + 1 ≤ f →
    (suffix = [] ∨ (∃ ts, suffix = Token.and :: ts) ∨
      (∃ ts, suffix = Token.or :: ts)) →
    parseAtomF f (chunk ++ suffix) = .ok (e, suffix)

/-- Interleave operator tokens with atom chunks. -/
def opJoin : List (Token × List Token) → List Token
  | [] => []
  | (op, a) :: rest => op :: (a ++ opJoin rest)

/-- The left-to-right grouping: each operator combines the whole
expression accumulated so far with the next atom. -/
def opFold (e0 : Expr) : List (Token × Expr) → Expr
  | [] => e0
  | (op, e) :: rest =>
      opFold (if op = Token.and then Expr.inter e0 e else Expr.union e0 e) rest

theorem opJoin_shape (rest : List (Token × List Token))
    (h : ∀ x ∈ rest, x.1 = Token.and ∨ x.1 = Token.or) :
    opJoin rest = [] ∨ (∃ ts, opJoin rest = Token.and :: ts) ∨
      (∃ ts, opJoin rest = Token.or :: ts) := by
  cases rest with
  | nil => exact Or.inl rfl
  | cons x rest2 =>
      obtain ⟨op, a⟩ := x
      rcases h (op, a) (by simp) with hop | hop
      · refine Or.inr (Or.inl ⟨a ++ opJoin rest2, ?_⟩)
        simp only [opJoin]
        rw [show op = Token.and from hop]
      · refine Or.inr (Or.inr ⟨a ++ opJoin rest2, ?_⟩)
        simp only [opJoin]
        rw [show op = Token.or from hop]

/-- Folding `(AND|OR) atom` continuations: the parser groups strictly
left to right, whatever mix of the two operators appears. -/
theorem parseOps_chunks :
    ∀ (rest : List (Token × List Token × Expr)) (acc : Expr) (f : Nat),
    (∀ x ∈ rest, (x.1 = Token.and ∨ x.1 = Token.or) ∧ IsAtom x.2.1 x.2.2) →
    2 * (opJoin (rest.map (fun x => (x.1, x.2.1)))).length + 1 ≤ f →
    parseOpsF f acc (opJoin (rest.map (fun x => (x.1, x.2.1)))) =
      .ok (opFold acc (rest.map (fun x => (x.1, x.2.2))), []) := by
  intro rest
  induction rest with
  | nil =>
      intro acc f _ hf
      obtain ⟨f2, rfl⟩ : ∃ f2, f = f2 + 1 := ⟨f - 1, by omega⟩
      rfl
  | cons x rest2 ih =>
      intro acc f hx hf
      obtain ⟨op, a, e⟩ := x
      have hhead := hx (op, a, e) (by simp)
      have hrest : ∀ y ∈ rest2, (y.1 = Token.and ∨ y.1 = Token.or) ∧
          IsAtom y.2.1 y.2.2 := fun y hy => hx y (by simp [hy])
      obtain ⟨f2, rfl⟩ : ∃ f2, f = f2 + 1 := ⟨f - 1, by omega⟩
      simp only [List.map_cons, opJoin] at hf ⊢
      have hflen : 2 * a.length +
          2 * (opJoin (rest2.map fun x => (x.1, x.2.1))).length + 3 ≤ f2 + 1 := by
        simp at hf
        omega
      have hshape := opJoin_shape (rest2.map fun x => (x.1, x.2.1))
        (fun y hy => by
          rcases List.mem_map.mp hy with ⟨z, hz, rfl⟩
          exact (hrest z hz).1)
      have hatom : parseAtomF f2 (a ++ opJoin (rest2.map fun x => (x.1, x.2.1)))
          = .ok (e, opJoin (rest2.map fun x => (x.1, x.2.1))) :=
        hhead.2 f2 _ (by show 2 * a.length + 1 ≤ f2; omega) hshape
      have hops : ∀ acc2, parseOpsF f2 acc2
          (opJoin (rest2.map fun x => (x.1, x.2.1))) =
          .ok (opFold acc2 (rest2.map fun x => (x.1, x.2.2)), []) :=
        fun acc2 => ih acc2 f2 hrest (by omega)
      rcases hhead.1 with hop | hop
      · have hop2 : op = Token.and := hop
        subst hop2
        simp only [parseOpsF, hatom, Except.bind, bind]
        rw [hops]
        simp [opFold]
      · have hop2 : op = Token.or := hop
        subst hop2
        simp only [parseOpsF, hatom, Except.bind, bind]
        rw [hops]
        simp [opFold]

theorem dupFree_foldl_guardB (B : List Value) :
    ∀ (l acc : List Value), dupFree acc = true →
    dupFree (l.foldl (fun acc obj => if inList B obj then add acc obj else acc)
      acc) = true := by
  intro l
  induction l with
  | nil => intro acc h; exact h
  | cons x xs ih =>
      intro acc h
      simp only [List.foldl_cons]
      cases hx : inList B x with
      | true => exact ih (add acc x) (dupFree_add h)
      | false => exact ih acc h

theorem dupFree_foldl_guardAcc :
    ∀ (l acc : List Value), dupFree acc = true →
    dupFree (l.foldl (fun acc obj => if inList acc obj then acc else add acc obj)
      acc) = true := by
  intro l
  induction l with
  | nil => intro acc h; exact h
  | cons x xs ih =>
      intro acc h
      simp only [List.foldl_cons]
      cases hx : inList acc x with
      | true => simp only [hx, if_true]; exact ih acc h
      | false =>
          simp only [hx, Bool.false_eq_true, if_false]
          exact ih (add acc x) (dupFree_add h)

theorem filterGoS_ok {tag : String} {cmp : Value → Except PyErr Bool} {r0 : Nat} :
    ∀ {l : List Value} {σ : List (List Value)} {r : Nat},
    (filterGoS tag cmp r0 l σ).2 = .ok r → r = r0 := by
  intro l
  induction l with
  | nil =>
      intro σ r h
      cases h
      rfl
  | cons obj rest ih =>
      intro σ r h
      simp only [filterGoS] at h
      split at h
      · exact ih h
      · cases h
      · split at h
        · cases h
        · exact ih h
        · exact ih h

theorem fuzzyGoS_ok {cmp : Value → Except PyErr Bool} {r0 : Nat} :
    ∀ {l : List Value} {σ : List (List Value)} {r : Nat},
    (fuzzyGoS cmp r0 l σ).2 = .ok r → r = r0 := by
  intro l
  induction l with
  | nil =>
      intro σ r h
      cases h
      rfl
  | cons obj rest ih =>
      intro σ r h
      simp only [fuzzyGoS] at h
      split at h
      · cases h
      · exact ih h
      · exact ih h

/-! ### The claims -/

/-- Claim C1 (code bug): the claim says the empty query parses to an
AST with no expression and evaluates to the full collection; in the
code the grammar `input : expr` has no empty production (the
`len(p) == 1` branch of `p_input` is unreachable), so parsing `""`
raises `ParsingError` at end of input — and even an expression-less AST
would make `_evaluate_expression` fall through its `isinstance` chain
and return `None`, not the collection. -/
theorem claim_C1 :
    parseQuery "" = .error "Syntax error near of \"EOL\"" ∧
    ∀ objects : List Value, evaluateExpression objects none = .ok none :=
  ⟨rfl, fun _ => rfl⟩

/-- Claim C2: a record in which the dotted field path hits an absent
key is excluded by `filter` without raising — it contributes neither a
match nor an exception — and when the path misses every record this way
the filter returns an empty collection without raising. -/
theorem claim_C2 (l1 l2 : List Value) (obj : Value) (tag : String)
    (cmp : Value → Except PyErr Bool)
    (hmiss : findValueByKey obj tag = .error .keyError) :
    filterOp (l1 ++ obj :: l2) tag cmp = filterOp (l1 ++ l2) tag cmp ∧
    ((∀ o ∈ l1 ++ obj :: l2, findValueByKey o tag = .error .keyError) →
      filterOp (l1 ++ obj :: l2) tag cmp = .ok []) := by
  constructor
  · exact filterGo_skip hmiss l1 l2 []
  · intro hall
    exact filterGo_all_missing hall []

theorem claim_C2_witness :
    findValueByKey (Value.dict [("a", Value.str "x")]) "missing"
      = .error .keyError ∧
    filterOp [Value.dict [("a", Value.str "x")]] "missing"
      (fun _ => .ok true) = .ok [] := by
  refine ⟨rfl, ?_⟩
  have h := claim_C2 [] [] (Value.dict [("a", Value.str "x")]) "missing"
    (fun _ => .ok true) rfl
  exact h.2 (by intro o ho; simp at ho; subst ho; rfl)

/-- Claim C4: `union(A, B)` lists every record of `B` first, in `B`'s
order, then the records of `A` not already present, in `A`'s order;
records common to both collections appear once, positioned by `B`. -/
theorem claim_C4 (A B : List Value) (hA : dupFree A = true)
    (hB : dupFree B = true) :
    unionOp A B = B ++ A.filter (fun o => !(inList B o)) := by
  have h1 : B.foldl add [] = B := by
    have h := foldl_add_of_dupFree B [] (by simpa using hB)
    simpa using h
  show (A.foldl (fun acc obj => if inList acc obj then acc else add acc obj)
      (B.foldl (fun acc obj => add acc obj) [])) = _
  rw [show B.foldl (fun acc obj => add acc obj) [] = B from h1]
  have h2 := foldl_or_step A B [] (by simp) hA
  simpa using h2

theorem claim_C4_witness :
    dupFree [Value.str "a", Value.str "b"] = true ∧
    unionOp [Value.str "a", Value.str "b"] [Value.str "b", Value.str "c"] =
      [Value.str "b", Value.str "c"] ++
        [Value.str "a", Value.str "b"].filter
          (fun o => !(inList [Value.str "b", Value.str "c"] o)) :=
  ⟨rfl, claim_C4 _ _ rfl rfl⟩

/-- Claim C5: `intersect(A, B)` is the subsequence of `A` whose
records are structurally present in `B`, in `A`'s order. -/
theorem claim_C5 (A B : List Value) (hA : dupFree A = true) :
    interOp A B = A.filter (fun o => inList B o) := by
  show (A.foldl (fun acc obj => if inList B obj then add acc obj else acc) [])
      = _
  have h := foldl_and_step A B [] (by simp) hA
  simpa using h

theorem claim_C5_witness :
    dupFree [Value.str "a", Value.str "b"] = true ∧
    interOp [Value.str "a", Value.str "b"] [Value.str "b", Value.str "c"] =
      [Value.str "a", Value.str "b"].filter
        (fun o => inList [Value.str "b", Value.str "c"] o) :=
  ⟨rfl, claim_C5 _ _ rfl⟩

/-- Claim C10: on a duplicate-free collection of well-formed records,
union and intersection with itself return exactly the collection, in
order — both set operations are idempotent. -/
theorem claim_C10 (A : List Value) (hwf : ∀ v ∈ A, wfVal v = true)
    (hA : dupFree A = true) : unionOp A A = A ∧ interOp A A = A := by
  have hmem : ∀ o ∈ A, inList A o = true :=
    fun o ho => inList_of_mem ho (hwf o ho)
  have h1 : A.foldl add [] = A := by
    have h := foldl_add_of_dupFree A [] (by simpa using hA)
    simpa using h
  constructor
  · show (A.foldl (fun acc obj => if inList acc obj then acc else add acc obj)
        (A.foldl (fun acc obj => add acc obj) [])) = A
    rw [show A.foldl (fun acc obj => add acc obj) [] = A from h1]
    have hgen : ∀ (l : List Value), (∀ o ∈ l, inList A o = true) →
        l.foldl (fun acc obj => if inList acc obj then acc else add acc obj) A
          = A := by
      intro l
      induction l with
      | nil => intro _; rfl
      | cons x xs ih =>
          intro h
          simp only [List.foldl_cons, h x (by simp), if_true]
          exact ih fun o ho => h o (by simp [ho])
    exact hgen A hmem
  · show (A.foldl (fun acc obj => if inList A obj then add acc obj else acc) [])
        = A
    have h := foldl_and_step A A [] (by simp) hA
    simp only [List.nil_append] at h
    rw [h]
    exact List.filter_eq_self.mpr hmem

theorem claim_C10_witness :
    (∀ v ∈ [Value.dict [("a", Value.int 1)], Value.str "x"], wfVal v = true) ∧
    dupFree [Value.dict [("a", Value.int 1)], Value.str "x"] = true ∧
    unionOp [Value.dict [("a", Value.int 1)], Value.str "x"]
        [Value.dict [("a", Value.int 1)], Value.str "x"] =
      [Value.dict [("a", Value.int 1)], Value.str "x"] ∧
    interOp [Value.dict [("a", Value.int 1)], Value.str "x"]
        [Value.dict [("a", Value.int 1)], Value.str "x"] =
      [Value.dict [("a", Value.int 1)], Value.str "x"] := by
  have h := claim_C10 [Value.dict [("a", Value.int 1)], Value.str "x"]
    (by intro v hv; simp at hv; rcases hv with rfl | rfl <;> rfl) rfl
  exact ⟨by intro v hv; simp at hv; rcases hv with rfl | rfl <;> rfl,
    rfl, h.1, h.2⟩

/-- Data-level characterization of string equality. -/
theorem string_eq_iff_data (a b : String) : a = b ↔ a.data = b.data :=
  ⟨fun h => by rw [h], fun h => by cases a; cases b; simp_all⟩

/-- Claim C6 (amended): for both Filter and Fuzzy leaves the literal
becomes a fully anchored pattern in which `*` matches any sequence of
non-newline characters and `.` — a permitted literal character — keeps
its regex meaning and matches any single non-newline character; every
other permitted character matches only itself (case-insensitively for
Fuzzy); the match must cover the whole target except that the end
anchor also accepts a single trailing newline. -/
theorem claim_C6 (lit target : String)
    (hl : ∀ c ∈ lit.data, isStrChar c = true) :
    opFilterMatch (mkPattern lit) (.str target) = .ok (glob false lit target) ∧
    opFuzzyMatch (mkPattern lit) (.str target) = .ok (glob true lit target) := by
  refine ⟨?_, ?_⟩
  · show Except.ok (reMatch (mkPattern lit) false target) = _
    rw [reMatch_eq_glob false lit target hl]
  · show Except.ok (reMatch (mkPattern lit) true (pyFormat (Value.str target)))
        = _
    rw [show pyFormat (Value.str target) = target from rfl]
    rw [reMatch_eq_glob true lit target hl]

/-- Claim C6, counterexample to the claim as stated: the lexable
literal `a.b` matches the target `axb` under the code's matcher, while
under the claimed semantics (`*` the only wildcard, every other
character matching only itself) it must not. -/
theorem claim_C6_counterexample :
    opFilterMatch (mkPattern "a.b") (Value.str "axb") = .ok true ∧
    starGlob "a.b" "axb" = false :=
  ⟨rfl, rfl⟩

theorem claim_C6_witness :
    (∀ c ∈ ("Git*").data, isStrChar c = true) ∧
    opFilterMatch (mkPattern "Git*") (Value.str "Github")
      = .ok (glob false "Git*" "Github") ∧
    opFuzzyMatch (mkPattern "Git*") (Value.str "github")
      = .ok (glob true "Git*" "github") ∧
    glob false "Git*" "Github" = true ∧ glob true "Git*" "github" = true := by
  refine ⟨by decide, ?_, ?_, rfl, rfl⟩
  · exact (claim_C6 "Git*" "Github" (by decide)).1
  · exact (claim_C6 "Git*" "github" (by decide)).2

/-- Claim C7 (amended): a numeric literal is stringified into the
pattern, so `field=5` matches a record whose field holds the string
`"5"` (up to the end anchor's tolerance of one trailing newline); but
when the stored field value is a number, `OpFilter.match` hands the
non-string to `re.match` and raises `TypeError` instead of matching —
only the pattern side is stringified, never the target. -/
theorem claim_C7 (lit s : String) (hdig : ∀ c ∈ lit.data, c.isDigit = true) :
    opFilterMatch (mkPattern lit) (.str s) =
      .ok (decide (s = lit) || decide (s = lit ++ "\n")) ∧
    ∀ m : Int, opFilterMatch (mkPattern lit) (.int m) = .error .typeError := by
  refine ⟨?_, fun m => rfl⟩
  have hstr : ∀ c ∈ lit.data, isStrChar c = true := by
    intro c hc
    have hd := hdig c hc
    simp [isStrChar, hd]
  show Except.ok (reMatch (mkPattern lit) false s) = _
  rw [reMatch_eq_glob false lit s hstr]
  show Except.ok
    (globF false (lit.data.length + s.data.length + 2) lit.data s.data) = _
  rw [globF_digits _ lit.data s.data hdig (by omega)]
  have e1 : decide (s.data = lit.data) = decide (s = lit) :=
    decide_eq_decide.mpr (string_eq_iff_data s lit).symm
  have e2 : decide (s.data = lit.data ++ ['\n']) = decide (s = lit ++ "\n") := by
    refine decide_eq_decide.mpr ?_
    rw [string_eq_iff_data s (lit ++ "\n"), String.data_append]
  rw [e1, e2]

/-- Claim C7, counterexample to the claim as stated: with the query
`n=5`, a record storing the number `5` under `n` makes the filter raise
`TypeError` instead of matching, while a record storing the string
`"5"` matches. -/
theorem claim_C7_counterexample :
    filterOp [Value.dict [("n", Value.int 5)]] "n"
      (opFilterMatch (mkPattern "5")) = .error .typeError ∧
    filterOp [Value.dict [("n", Value.str "5")]] "n"
      (opFilterMatch (mkPattern "5")) = .ok [Value.dict [("n", Value.str "5")]] :=
  ⟨rfl, rfl⟩

theorem claim_C7_witness :
    (∀ c ∈ ("5").data, c.isDigit = true) ∧
    opFilterMatch (mkPattern "5") (Value.str "5")
      = .ok (decide (("5" : String) = "5") || decide (("5" : String) = "5" ++ "\n")) ∧
    opFilterMatch (mkPattern "5") (Value.int 5) = .error .typeError := by
  refine ⟨by decide, ?_, ?_⟩
  · exact (claim_C7 "5" "5" (by decide)).1
  · exact (claim_C7 "5" "5" (by decide)).2 5

/-- Claim C8: every collection produced by the public operations is
free of structurally-equal duplicates — copy construction and `add`
preserve the invariant, and filter, fuzzy scan, union and intersection
establish it outright since they insert only through `add`. -/
theorem claim_C8 :
    (∀ objs : List Value, dupFree objs = true →
      dupFree (copyFrom objs) = true) ∧
    (∀ (objs : List Value) (obj : Value), dupFree objs = true →
      dupFree (add objs obj) = true) ∧
    (∀ (objs : List Value) (tag : String) (cmp : Value → Except PyErr Bool)
      (res : List Value), filterOp objs tag cmp = .ok res →
        dupFree res = true) ∧
    (∀ (objs : List Value) (cmp : Value → Except PyErr Bool)
      (res : List Value), fuzzyOp objs cmp = .ok res → dupFree res = true) ∧
    (∀ A B : List Value, dupFree (unionOp A B) = true) ∧
    (∀ A B : List Value, dupFree (interOp A B) = true) := by
  refine ⟨fun objs h => h, fun objs obj h => dupFree_add h,
    fun objs tag cmp res h =>
      filterGo_dupFree (show dupFree ([] : List Value) = true from rfl) h,
    fun objs cmp res h =>
      fuzzyGo_dupFree (show dupFree ([] : List Value) = true from rfl) h,
    fun A B => ?_, fun A B => dupFree_foldl_guardB B A [] rfl⟩
  show dupFree
      (A.foldl (fun acc obj => if inList acc obj then acc else add acc obj)
        (B.foldl (fun acc obj => add acc obj) [])) = true
  exact dupFree_foldl_guardAcc A _ (dupFree_foldl_add rfl)

theorem claim_C8_witness :
    dupFree (copyFrom [Value.str "a"]) = true ∧
    dupFree (add [Value.str "a"] (Value.str "a")) = true ∧
    dupFree [Value.dict [("n", Value.str "5")]] = true ∧
    dupFree [Value.dict [("t", Value.str "x")]] = true ∧
    dupFree (unionOp [Value.str "a"] [Value.str "a"]) = true ∧
    dupFree (interOp [Value.str "a"] [Value.str "a"]) = true := by
  refine ⟨claim_C8.1 [Value.str "a"] rfl,
    claim_C8.2.1 [Value.str "a"] (Value.str "a") rfl, ?_, ?_,
    claim_C8.2.2.2.2.1 [Value.str "a"] [Value.str "a"],
    claim_C8.2.2.2.2.2 [Value.str "a"] [Value.str "a"]⟩
  · exact claim_C8.2.2.1 [Value.dict [("n", Value.str "5")]] "n"
      (fun _ => .ok true) [Value.dict [("n", Value.str "5")]] rfl
  · exact claim_C8.2.2.2.1 [Value.dict [("t", Value.str "x")]]
      (fun _ => .ok true) [Value.dict [("t", Value.str "x")]] rfl

/-- A `NAME EQUALS STRING` chunk is an atom. -/
theorem isAtom_pair (n sv : String) :
    IsAtom [Token.name n, Token.equals, Token.str sv]
      (.filter n (mkPattern sv)) := by
  intro f suffix hf _
  obtain ⟨f2, rfl⟩ : ∃ f2, f = f2 + 1 := ⟨f - 1, by omega⟩
  rfl

/-- A bare `NAME` chunk is an atom when what follows is an operator or
nothing. -/
theorem isAtom_name (n : String) :
    IsAtom [Token.name n] (.fuzzy (mkPattern n)) := by
  intro f suffix hf hshape
  obtain ⟨f2, rfl⟩ : ∃ f2, f = f2 + 1 := ⟨f - 1, by omega⟩
  rcases hshape with rfl | ⟨ts, rfl⟩ | ⟨ts, rfl⟩ <;> rfl

/-- Claim C3 (amended): `AND` and `OR` sit on one left-associative
precedence level, so any unparenthesized sequence of atoms joined by a
mix of the two operators groups strictly left to right — `a&b|c`
parses as `(a&b)|c` and `name="a"|name="b"&name="c"` as
`(name="a"|name="b")&name="c"`.  The claim's unquoted example
`name=a|name=b&name=c` does not parse at all: the grammar allows only
`STRING` or `NUMBER` after `NAME =`, so the bare `a` raises a
`ParsingError`. -/
theorem claim_C3 (a0 : List Token) (e0 : Expr)
    (rest : List (Token × List Token × Expr))
    (h0 : IsAtom a0 e0)
    (hrest : ∀ x ∈ rest,
      (x.1 = Token.and ∨ x.1 = Token.or) ∧ IsAtom x.2.1 x.2.2) :
    parseInput (a0 ++ opJoin (rest.map fun x => (x.1, x.2.1))) =
      .ok (some (opFold e0 (rest.map fun x => (x.1, x.2.2)))) := by
  have hshape := opJoin_shape (rest.map fun x => (x.1, x.2.1))
    (fun y hy => by
      rcases List.mem_map.mp hy with ⟨z, hz, rfl⟩
      exact (hrest z hz).1)
  have hatom : parseAtomF
      (2 * (a0 ++ opJoin (rest.map fun x => (x.1, x.2.1))).length + 1)
      (a0 ++ opJoin (rest.map fun x => (x.1, x.2.1)))
      = .ok (e0, opJoin (rest.map fun x => (x.1, x.2.1))) :=
    h0 _ _ (by simp only [List.length_append]; omega) hshape
  have hops := parseOps_chunks rest e0
    (2 * (a0 ++ opJoin (rest.map fun x => (x.1, x.2.1))).length + 1) hrest
    (by simp only [List.length_append]; omega)
  unfold parseInput
  rw [show 2 * (a0 ++ opJoin (rest.map fun x => (x.1, x.2.1))).length + 2 =
    2 * (a0 ++ opJoin (rest.map fun x => (x.1, x.2.1))).length + 1 + 1 from rfl]
  simp only [parseExprF, hatom, Except.bind, bind]
  rw [hops]

/-- Claim C3, counterexample to the claim as stated: the cited query
`name=a|name=b&name=c` is rejected by the parser — after `name=` only a
quoted string or a number is grammatical — with the error naming the
bare literal `a`. -/
theorem claim_C3_counterexample :
    parseQuery "name=a|name=b&name=c"
      = .error "Syntax error near of \"a\"" := rfl

theorem claim_C3_witness :
    parseQuery "name=\"a\"|name=\"b\"&name=\"c\"" =
      .ok (some (.inter
        (.union (.filter "name" (mkPattern "a")) (.filter "name" (mkPattern "b")))
        (.filter "name" (mkPattern "c")))) ∧
    parseQuery "a&b|c" =
      .ok (some (.union
        (.inter (.fuzzy (mkPattern "a")) (.fuzzy (mkPattern "b")))
        (.fuzzy (mkPattern "c")))) := by
  constructor
  · have h := claim_C3 [Token.name "name", Token.equals, Token.str "a"]
      (.filter "name" (mkPattern "a"))
      [(Token.or, [Token.name "name", Token.equals, Token.str "b"],
        .filter "name" (mkPattern "b")),
       (Token.and, [Token.name "name", Token.equals, Token.str "c"],
        .filter "name" (mkPattern "c"))]
      (isAtom_pair "name" "a")
      (by
        intro x hx
        simp only [List.mem_cons, List.not_mem_nil, or_false] at hx
        rcases hx with rfl | rfl
        · exact ⟨Or.inr rfl, isAtom_pair "name" "b"⟩
        · exact ⟨Or.inl rfl, isAtom_pair "name" "c"⟩)
    exact h
  · have h := claim_C3 [Token.name "a"] (.fuzzy (mkPattern "a"))
      [(Token.and, [Token.name "b"], .fuzzy (mkPattern "b")),
       (Token.or, [Token.name "c"], .fuzzy (mkPattern "c"))]
      (isAtom_name "a")
      (by
        intro x hx
        simp only [List.mem_cons, List.not_mem_nil, or_false] at hx
        rcases hx with rfl | rfl
        · exact ⟨Or.inl rfl, isAtom_name "b"⟩
        · exact ⟨Or.inr rfl, isAtom_name "c"⟩)
    exact h

/-- Claim C9: over the explicit store, each of the four set operations
allocates its response fresh at the end of the store and writes only
there: every pre-existing collection — in particular the operands —
keeps its contents and order, whether the operation completes or
raises. -/
theorem claim_C9 (σ : List (List Value)) (i j k : Nat) (hk : k < σ.length)
    (tag : String) (cmp : Value → Except PyErr Bool) :
    (readC (interS σ i j).1 k = readC σ k ∧ (interS σ i j).2 = σ.length) ∧
    (readC (unionS σ i j).1 k = readC σ k ∧ (unionS σ i j).2 = σ.length) ∧
    (readC (filterS σ i tag cmp).1 k = readC σ k ∧
      ∀ r, (filterS σ i tag cmp).2 = .ok r → r = σ.length) ∧
    (readC (fuzzyS σ i cmp).1 k = readC σ k ∧
      ∀ r, (fuzzyS σ i cmp).2 = .ok r → r = σ.length) := by
  have hkr : k ≠ σ.length := by omega
  have hread1 : readC (σ ++ [[]]) k = readC σ k := readC_append hk []
  have hg1 : ∀ (τ : List (List Value)) (a : Value),
      readC (addS τ σ.length a) k = readC τ k :=
    fun τ a => readC_addS_ne hkr a
  refine ⟨⟨?_, rfl⟩, ⟨?_, rfl⟩, ⟨?_, fun r h => filterGoS_ok h⟩,
    ⟨?_, fun r h => fuzzyGoS_ok h⟩⟩
  · show readC ((readC (σ ++ [[]]) i).foldl
        (fun τ obj =>
          if inList (readC τ j) obj then addS τ σ.length obj else τ)
        (σ ++ [[]])) k = _
    rw [readC_foldl (fun τ a => by
      split
      · exact hg1 τ a
      · rfl)]
    exact hread1
  · show readC ((readC ((readC (σ ++ [[]]) j).foldl
        (fun τ obj => addS τ σ.length obj) (σ ++ [[]])) i).foldl
        (fun τ obj =>
          if inList (readC τ σ.length) obj then τ else addS τ σ.length obj)
        ((readC (σ ++ [[]]) j).foldl
          (fun τ obj => addS τ σ.length obj) (σ ++ [[]]))) k = _
    rw [readC_foldl (fun τ a => by
      split
      · rfl
      · exact hg1 τ a)]
    rw [readC_foldl hg1]
    exact hread1
  · show readC (filterGoS tag cmp σ.length
        (readC (σ ++ [[]]) i) (σ ++ [[]])).1 k = _
    rw [readC_filterGoS hkr]
    exact hread1
  · show readC (fuzzyGoS cmp σ.length
        (readC (σ ++ [[]]) i) (σ ++ [[]])).1 k = _
    rw [readC_fuzzyGoS hkr]
    exact hread1

theorem claim_C9_witness :
    readC (interS [[Value.str "a"]] 0 0).1 0 = readC [[Value.str "a"]] 0 ∧
    (interS [[Value.str "a"]] 0 0).2 = 1 ∧
    readC (unionS [[Value.str "a"]] 0 0).1 0 = readC [[Value.str "a"]] 0 ∧
    readC (filterS [[Value.str "a"]] 0 "t" (fun _ => .ok true)).1 0
      = readC [[Value.str "a"]] 0 ∧
    readC (fuzzyS [[Value.str "a"]] 0 (fun _ => .ok true)).1 0
      = readC [[Value.str "a"]] 0 := by
  have h := claim_C9 [[Value.str "a"]] 0 0 0 (by decide) "t" (fun _ => .ok true)
  exact ⟨h.1.1, h.1.2, h.2.1.1, h.2.2.1.1, h.2.2.2.1⟩

end Oppy
